import Mathlib

/-!
Verification of the resumable, bounded-concurrency batch engine of the
AestheticExplorationsViaMetaPrompting repository.

The definitions below are a shallow embedding of the Python sources:
`scripts/theme_extractor.py` (sink, dedup ledger, `write_record`, `task_fn`,
the range slicing and the fire-and-refill scheduler of `main`) and
`scripts/generate_cards.py` (`_with_retries`, `latex_escape`,
`latex_unescape`, `_next_unique_output_path`, the completion handling of
`cmd_generate`).  Mutable state (the open JSONL sink, the `existing_ids`
set, the `appended` counter) is passed explicitly; each `write_record`
invocation is modelled as one atomic state transition because in the source
the check, the append and the ledger update all happen inside the single
`with write_lock:` critical section.
-/

namespace Aesthetic

/-! ## The sink file and the dedup ledger (`theme_extractor.py`)

A sink file is a list of lines.  A line is blank, fails to parse as JSON
(`malformed`), or is a JSON object; for an object only the optional `id`
string and the `themes` array matter to the engine.  An absent `id` key is
`none`; Python's truthiness test `if cid0:` additionally rejects the empty
string, which the ledger loader checks explicitly. -/

inductive SinkLine where
  | blank : SinkLine
  | malformed : SinkLine
  | record (id : Option String) (themes : List String) : SinkLine
deriving DecidableEq, Repr

/-- Embedding of `theme_extractor.main`, lines 239-252: scan every line of the existing
sink, skip blank lines, skip lines that fail to parse, and collect each
truthy `id` into `existing_ids`. -/
def loadLedger : List SinkLine → List String
  | [] => []
  | .blank :: rest => loadLedger rest
  | .malformed :: rest => loadLedger rest
  | .record none _ :: rest => loadLedger rest
  | .record (some cid) _ :: rest =>
      if cid = "" then loadLedger rest else cid :: loadLedger rest

/-- The mutable state of one run of `theme_extractor.main`: the sink file
(`jout` plus what was already on disk), the `existing_ids` set, the
`appended` counter, and — as instrumentation — the list of conversation ids
for which the External Worker (`analyze_themes_minimal`) was invoked. -/
structure RunState where
  sink : List SinkLine
  ledger : List String
  appended : Nat
  calls : List String
deriving DecidableEq, Repr

/-- Embedding of `theme_extractor.main.write_record`, lines 263-275: inside the
`write_lock` critical section, return without writing if the id is already
in `existing_ids`; otherwise append one JSON line, add the id to
`existing_ids` and bump `appended`. -/
def writeRecord (cid : String) (themes : List String) (st : RunState) : RunState :=
  if cid ∈ st.ledger then st
  else
    { st with
      sink := st.sink ++ [.record (some cid) themes]
      ledger := cid :: st.ledger
      appended := st.appended + 1 }

/-! ## Conversations and their ids -/

/-- One entry of `conversations.json`, reduced to the fields the engine
reads: the two candidate id fields and the extracted transcript text
(`extract_transcript_from_conversation` is pure text plumbing and is
abstracted to the transcript it yields). -/
structure Conv where
  id : Option String
  conversation_id : Option String
  transcript : String
deriving DecidableEq, Repr

/-- Default used for the (never exercised) out-of-range list access
`convs[idx]`. -/
def defaultConv : Conv := ⟨none, none, ""⟩

/-- Python's `a or b` for an optional string `a`: falls through on `None`
and on the falsy empty string. -/
def orFalsy (a : Option String) (b : String) : String :=
  match a with
  | none => b
  | some s => if s = "" then b else s

/-- Zero-padding of `f"conv-{idx+1:05d}"`. -/
def pad5 (n : Nat) : String :=
  let s := toString n
  String.mk (List.replicate (5 - s.length) '0') ++ s

/-- Id resolution of `theme_extractor.main.task_fn`, line 279:
`cid = conv.get("id") or conv.get("conversation_id") or f"conv-{idx+1:05d}"`. -/
def convId (idx : Nat) (c : Conv) : String :=
  orFalsy c.id (orFalsy c.conversation_id ("conv-" ++ pad5 (idx + 1)))

/-! ## The External Worker call and its parsing
(`analyze_themes_minimal`, lines 195-219) -/

/-- The provider's completion, after the engine's `json.loads` attempt:
either a parsed object carrying a `themes` array, or raw content that
failed to parse. -/
inductive ProviderResult where
  | parsed (themes : List String) : ProviderResult
  | unparsable (raw : String) : ProviderResult
deriving DecidableEq, Repr

/-- Python slicing `s[:n]` on a string. -/
def strTake (n : Nat) (s : String) : String :=
  String.mk (s.toList.take n)

/-- Python's `str.strip()`: drop whitespace from both ends. -/
def pyStrip (s : String) : String :=
  String.mk (((s.toList.dropWhile Char.isWhitespace).reverse.dropWhile
    Char.isWhitespace).reverse)

/-- The tail of `analyze_themes_minimal`:
`themes = [str(t).strip()[:40] for t in themes if str(t).strip()]` then
`themes[:7]` on a parsed response; `[]` (after logging the raw content to
the debug side-channel) when `json.loads` raises. -/
def analyzeThemes : ProviderResult → List String
  | .parsed ts =>
      ((ts.filter (fun t => pyStrip t ≠ "")).map (fun t => strTake 40 (pyStrip t))).take 7
  | .unparsable _ => []

/-- A provider call for one conversation: the transcript is sent and either
a completion comes back (to be parsed) or the call raises. -/
def Provider : Type := String → String → Except String ProviderResult

/-- Embedding of `theme_extractor.main.task_fn`, lines 277-284: resolve the id, return
immediately if it is already in `existing_ids`, otherwise extract the
transcript, call the worker unless the transcript is blank, and hand the
themes to `write_record`.  The second component is the exception the task
raises (later swallowed by the scheduler), if any; the ghost field `calls`
records that the provider call happened before the exception propagated. -/
def taskFn (provider : Provider) (convs : List Conv) (st : RunState) (idx : Nat) :
    RunState × Option (String × String) :=
  let c := convs.getD idx defaultConv
  let cid := convId idx c
  if cid ∈ st.ledger then (st, none)
  else if pyStrip c.transcript = "" then (writeRecord cid [] st, none)
  else
    match provider cid c.transcript with
    | .error e => ({ st with calls := st.calls ++ [cid] }, some (cid, e))
    | .ok r => (writeRecord cid (analyzeThemes r) { st with calls := st.calls ++ [cid] }, none)

/-- The completion loop of `theme_extractor.main`, lines 300-313, projected
to its effect on the shared state: each task runs, and its exception (if
any) is discarded by `try: f.result() except Exception: pass`. -/
def runTasks (provider : Provider) (convs : List Conv) (st : RunState) :
    List Nat → RunState
  | [] => st
  | idx :: rest => runTasks provider convs (taskFn provider convs st idx).1 rest

/-- What the completion handler of `theme_extractor.main` prints when a
task finishes: nothing on success, and nothing on failure either — the
handler body is `try: f.result() except Exception: pass`. -/
def themeCompletionLog (res : Except String Unit) : List String :=
  match res with
  | .ok _ => []
  | .error _ => []

/-! ## Range selection (`theme_extractor.main`, lines 229-255) -/

/-- Range clamping of the source: `s = max(1, args.start)`, `e = min(args.end, n)`,
`if s > e: raise SystemExit(...)`, `work_indices = list(range(s-1, e))`. -/
def rangeSlice (n : Nat) (start endArg : Int) : Except String (List Nat) :=
  let s := max 1 start
  let e := min endArg (n : Int)
  if s > e then .error "--start must be <= --end"
  else .ok (List.range' (s - 1).toNat (e - s + 1).toNat)

/-- One sequential run of `theme_extractor.main` over an initial sink file:
build the ledger from the sink, slice the range, process every work index,
swallowing per-task exceptions. -/
def run (provider : Provider) (convs : List Conv) (start endArg : Int)
    (sink0 : List SinkLine) : Except String RunState :=
  match rangeSlice convs.length start endArg with
  | .error e => .error e
  | .ok idxs =>
      .ok (runTasks provider convs ⟨sink0, loadLedger sink0, 0, []⟩ idxs)

/-- Sink of a finished run (empty when the run aborted on the range check). -/
def runSink (r : Except String RunState) : List SinkLine :=
  match r with
  | .ok st => st.sink
  | .error _ => []

/-- Worker-call instrumentation of a finished run. -/
def runCalls (r : Except String RunState) : List String :=
  match r with
  | .ok st => st.calls
  | .error _ => []

/-- Appended-record counter of a finished run. -/
def runAppended (r : Except String RunState) : Nat :=
  match r with
  | .ok st => st.appended
  | .error _ => 0

/-- The summary line printed at the end of `theme_extractor.main`. -/
def runReport (st : RunState) : String :=
  "Appended " ++ toString st.appended ++ " new conversation(s)."

/-- Number of sink lines carrying `id == x`. -/
def recCount (x : String) (sink : List SinkLine) : Nat :=
  sink.countP (fun l => match l with
    | .record (some y) _ => decide (y = x)
    | _ => false)

/-- The dedup invariant tying the sink to the ledger: every id occurs on at
most one sink line, and every id that occurs at all is in the ledger. -/
def LedgerInv (st : RunState) : Prop :=
  ∀ x, recCount x st.sink ≤ 1 ∧ (1 ≤ recCount x st.sink → x ∈ st.ledger)

/-- Membership correspondence between a run state's ledger and what a
fresh ledger scan of its sink would produce. -/
def LedgerSync (st : RunState) : Prop :=
  ∀ x, x ∈ st.ledger ↔ x ∈ loadLedger st.sink

/-! ## The retry combinator (`generate_cards._with_retries`, lines 90-99)

The callee is modelled as a function from the attempt number (1-based) to
the outcome of that attempt, so that "fails k times then succeeds" is
expressible.  The trace records the result (`none` when the Python `for`
loop runs zero iterations and the function falls through returning `None`),
the sequence of back-off sleeps, and how many times `call()` was invoked.
The source's `base_delay` is the float `2.0` and every computed delay
`base_delay * (2 ** (attempt - 1))` is an exact small power of two, so
durations are modelled as naturals. -/

structure RetryTrace (E A : Type) where
  result : Option (Except E A)
  sleeps : List Nat
  calls : Nat
deriving Repr

/-- The body of `_with_retries`' `for attempt in range(1, max_retries+1)`
loop over an explicit list of attempt numbers: return on success; on
failure re-raise when `attempt == max_retries`, otherwise sleep
`base_delay * (2 ** (attempt - 1))` and continue. -/
def withRetriesGo (fn : Nat → Except E A) (baseDelay : Nat) (maxRetries : Nat) :
    List Nat → RetryTrace E A
  | [] => ⟨none, [], 0⟩
  | attempt :: rest =>
    match fn attempt with
    | .ok v => ⟨some (.ok v), [], 1⟩
    | .error e =>
      if attempt = maxRetries then ⟨some (.error e), [], 1⟩
      else
        let t := withRetriesGo fn baseDelay maxRetries rest
        ⟨t.result, baseDelay * 2 ^ (attempt - 1) :: t.sleeps, t.calls + 1⟩

/-- Embedding of `generate_cards._with_retries` with its default arguments
`max_retries=5`, `base_delay=2.0`. -/
def withRetries (fn : Nat → Except E A) (maxRetries : Nat := 5) (baseDelay : Nat := 2) :
    RetryTrace E A :=
  withRetriesGo fn baseDelay maxRetries (List.range' 1 maxRetries)

/-! ## The bounded-concurrency scheduler
(`theme_extractor.main`, lines 286-313; `generate_cards.cmd_generate`,
lines 424-466)

Both scripts use the same fire-and-refill pattern: pre-fill the in-flight
set up to `max(1, concurrency)` tasks, then, each time one task completes,
remove it and submit at most one replacement.  Which in-flight task
completes first is scheduler nondeterminism, modelled as an external choice
sequence. -/

structure SchedState (α : Type) where
  remaining : List α
  inflight : List α
  completed : List α
deriving DecidableEq, Repr

/-- The pre-fill loop: `while len(inflight) < max(1, concurrency): i =
next(it); submit`. -/
def prefill (N : Nat) : List α → List α → SchedState α
  | [], inflight => ⟨[], inflight, []⟩
  | x :: rest, inflight =>
    if inflight.length < N then prefill N rest (inflight ++ [x])
    else ⟨x :: rest, inflight, []⟩

/-- One turn of the completion loop: a task chosen by the environment
(index `c` modulo the in-flight count) completes and is removed, and, if
the iterator has another item, exactly one replacement is submitted. -/
def stepAt (st : SchedState α) (c : Nat) : SchedState α :=
  if h : st.inflight.length = 0 then st
  else
    let i : Fin st.inflight.length :=
      ⟨c % st.inflight.length, Nat.mod_lt _ (Nat.pos_of_ne_zero h)⟩
    let item := st.inflight.get i
    let inflight' := st.inflight.eraseIdx i.1
    match st.remaining with
    | [] => ⟨[], inflight', item :: st.completed⟩
    | x :: rest => ⟨rest, inflight' ++ [x], item :: st.completed⟩

/-- The `while inflight:` loop, driven by a finite schedule of completion
choices. -/
def schedSteps (st : SchedState α) : List Nat → SchedState α
  | [] => st
  | c :: cs => if st.inflight.length = 0 then st else schedSteps (stepAt st c) cs

/-- A whole scheduler run: pre-fill from the work iterator, then process
completions. -/
def schedRun (N : Nat) (work : List α) (choices : List Nat) : SchedState α :=
  schedSteps (prefill N work []) choices

/-- Tasks submitted so far: everything that has entered the pool, whether
still in flight or already completed. -/
def submittedCount (st : SchedState α) : Nat :=
  st.completed.length + st.inflight.length

/-- The scheduler invariant: never more than `N` tasks in flight, the
in-flight set is full while the iterator has items, and no item is lost or
duplicated. -/
def SchedInv (N : Nat) (work : List α) (st : SchedState α) : Prop :=
  st.inflight.length ≤ N ∧
  (st.remaining ≠ [] → st.inflight.length = N) ∧
  (st.completed ++ st.inflight ++ st.remaining).Perm work

/-- The completion handling of `generate_cards.cmd_generate`, lines
444-451, for a sequence of tasks: a successful task prints its index and
result to stdout; a failed one prints `Error on index {pmt.index}: ...` to
stderr and the loop continues with the remaining items.  Returns the
(stdout, stderr) line lists. -/
def cmdGenerateLoop (task : Nat → Except String String) :
    List Nat → List String × List String
  | [] => ([], [])
  | i :: rest =>
    let (outs, errs) := cmdGenerateLoop task rest
    match task i with
    | .ok s => (("#" ++ toString i ++ " " ++ s) :: outs, errs)
    | .error e => (outs, ("Error on index " ++ toString i ++ ": " ++ e) :: errs)

/-! ## LaTeX escaping (`generate_cards.latex_escape` / `latex_unescape`,
lines 201-237)

Note the source asymmetry: `latex_escape` emits replacements written as
raw strings with a single backslash (`r"\&"`), while `latex_unescape`
searches for patterns written as raw strings with two backslashes
(`r"\\&"`). -/

/-- The per-character replacement table of `latex_escape`. -/
def latexEscapeChar (c : Char) : String :=
  if c = '\\' then "\\textbackslash\x7b\x7d"
  else if c = '&' then "\\&"
  else if c = '%' then "\\%"
  else if c = '$' then "\\$"
  else if c = '#' then "\\#"
  else if c = '_' then "\\_"
  else if c = '\x7b' then "\\\x7b"
  else if c = '\x7d' then "\\\x7d"
  else if c = '~' then "\\textasciitilde\x7b\x7d"
  else if c = '^' then "\\textasciicircum\x7b\x7d"
  else String.singleton c

/-- Embedding of `generate_cards.latex_escape`: map every character through the table
and join. -/
def latexEscape (s : String) : String :=
  String.join (s.toList.map latexEscapeChar)

/-- The literal (pattern, replacement) pairs of `latex_unescape`; the
patterns are Python raw strings `r"\\..."`, i.e. they start with TWO
backslash characters. -/
def latexUnescapePairs : List (String × String) :=
  [("\\\\textbackslash\x7b\x7d", "\\"),
   ("\\\\&", "&"),
   ("\\\\%", "%"),
   ("\\\\$", "$"),
   ("\\\\#", "#"),
   ("\\\\_", "_"),
   ("\\\\\x7b", "\x7b"),
   ("\\\\\x7d", "\x7d"),
   ("\\\\textasciitilde\x7b\x7d", "~"),
   ("\\\\textasciicircum\x7b\x7d", "^")]

/-- One pass of Python's `str.replace`: replace leftmost non-overlapping
occurrences of `pat`, scanning left to right.  The fuel starts at the
length of the subject and is consumed at least one character per step, so
it never runs out while the pattern is nonempty. -/
def replaceAllGo (pat rep : List Char) : Nat → List Char → List Char
  | 0, s => s
  | _ + 1, [] => []
  | fuel + 1, c :: rest =>
    if pat.isPrefixOf (c :: rest) then
      rep ++ replaceAllGo pat rep fuel ((c :: rest).drop pat.length)
    else c :: replaceAllGo pat rep fuel rest

/-- Python's `s.replace(pat, rep)` for a nonempty pattern. -/
def pyReplace (s pat rep : String) : String :=
  if pat = "" then s
  else String.mk (replaceAllGo pat.toList rep.toList s.toList.length s.toList)

/-- Embedding of `generate_cards.latex_unescape`: apply `str.replace` successively for
each pair. -/
def latexUnescape (s : String) : String :=
  latexUnescapePairs.foldl (fun acc p => pyReplace acc p.1 p.2) s

/-! ## Unique output paths
(`generate_cards._next_unique_output_path`, lines 307-317, and the filename
choice in `generate_for_prompt_dir`, lines 337-349)

A candidate filename is either the base `stem + suffix` or a variant
`stem + "-" + n + suffix` produced by `base.with_name(f"{base.stem}-{n}{base.suffix}")`;
the filesystem is the list of names that exist. -/

inductive FileName where
  | base (stem suffix : String) : FileName
  | variant (stem : String) (n : Nat) (suffix : String) : FileName
deriving DecidableEq, Repr

/-- Only finitely many files exist, so some numbered variant is free. -/
theorem exists_free_variant (fs : List FileName) (stem suffix : String) :
    ∃ k, FileName.variant stem (k + 2) suffix ∉ fs := by
  by_contra h
  push_neg at h
  have hinj : Function.Injective (fun k : Nat => FileName.variant stem (k + 2) suffix) := by
    intro a b hab
    simpa using hab
  have hsub : (Finset.range (fs.length + 1)).image
      (fun k => FileName.variant stem (k + 2) suffix) ⊆ fs.toFinset := by
    intro x hx
    rw [Finset.mem_image] at hx
    obtain ⟨k, _, rfl⟩ := hx
    simpa using h k
  have hcard := Finset.card_le_card hsub
  rw [Finset.card_image_of_injective _ hinj, Finset.card_range] at hcard
  have hlen := fs.toFinset_card_le
  omega

/-- Embedding of `_next_unique_output_path`: return `base` untouched if it does not
exist; otherwise try `-2`, `-3`, ... and return the first candidate that
does not exist, together with the suffix that was appended. -/
def nextUniqueOutputPath (fs : List FileName) (stem suffix : String) :
    FileName × String :=
  if FileName.base stem suffix ∈ fs then
    let n := Nat.find (exists_free_variant fs stem suffix) + 2
    (FileName.variant stem n suffix, "-" ++ toString n)
  else (FileName.base stem suffix, "")

/-- The filename choice of `generate_for_prompt_dir`:
`should_generate = allow_additional or (not front_png_base.exists())`; when
generation happens the target is `_next_unique_output_path(front_png_base)`,
otherwise no image is written (`none`). -/
def generateFrontPath (fs : List FileName) (stem suffix : String)
    (allowAdditional : Bool) : Option FileName :=
  if allowAdditional || !(decide (FileName.base stem suffix ∈ fs)) then
    some (nextUniqueOutputPath fs stem suffix).1
  else none

/-! ## Claim C9: LaTeX escape round-trip -/

/-- C9: the claim `latex_unescape(latex_escape(s)) == s` fails already at
`s = "&"`: `latex_escape` emits `\\&` (one backslash), but the
`latex_unescape` pattern is the raw string `r"\\\\&"` (two backslashes), so
nothing is replaced and the single-backslash escape survives.  This
contradicts the source's own comment "Reverse mapping of latex_escape used
in back.tex". -/
theorem c9_latex_unescape_not_left_inverse :
    latexEscape "&" = "\\&" ∧
    latexUnescape (latexEscape "&") = "\\&" ∧
    latexUnescape (latexEscape "&") ≠ "&" ∧
    latexUnescape "\\\\&" = "&" :=
  ⟨rfl, rfl, by decide, rfl⟩

/-! ## Claim C3: the retry combinator -/

theorem withRetriesGo_cons_ok (fn : Nat → Except E A) (b maxR attempt : Nat)
    (rest : List Nat) (v : A) (h : fn attempt = .ok v) :
    withRetriesGo fn b maxR (attempt :: rest) = ⟨some (.ok v), [], 1⟩ := by
  simp [withRetriesGo, h]

theorem withRetriesGo_cons_last (fn : Nat → Except E A) (b maxR attempt : Nat)
    (rest : List Nat) (e : E) (h : fn attempt = .error e) (hlast : attempt = maxR) :
    withRetriesGo fn b maxR (attempt :: rest) = ⟨some (.error e), [], 1⟩ := by
  subst hlast
  simp [withRetriesGo, h]

theorem withRetriesGo_cons_error (fn : Nat → Except E A) (b maxR attempt : Nat)
    (rest : List Nat) (e : E) (h : fn attempt = .error e) (hne : attempt ≠ maxR) :
    withRetriesGo fn b maxR (attempt :: rest) =
      ⟨(withRetriesGo fn b maxR rest).result,
        b * 2 ^ (attempt - 1) :: (withRetriesGo fn b maxR rest).sleeps,
        (withRetriesGo fn b maxR rest).calls + 1⟩ := by
  simp [withRetriesGo, h, hne]

theorem withRetriesGo_ok (fn : Nat → Except E A) (b maxR : Nat) :
    ∀ (k a r : Nat) (v : A),
      (∀ i, a ≤ i → i < a + k → ∃ e, fn i = .error e) →
      fn (a + k) = .ok v →
      a + k ≤ maxR →
      withRetriesGo fn b maxR (List.range' a (k + 1 + r)) =
        ⟨some (.ok v), (List.range' a k).map (fun i => b * 2 ^ (i - 1)), k + 1⟩ := by
  intro k
  induction k with
  | zero =>
    intro a r v _ hok _
    simp only [Nat.add_zero] at hok
    rw [show 0 + 1 + r = r + 1 from by omega, List.range'_succ,
      withRetriesGo_cons_ok fn b maxR a _ v hok]
    simp
  | succ k ih =>
    intro a r v hfail hok hle
    obtain ⟨e, he⟩ := hfail a (Nat.le_refl a) (by omega)
    have hne : a ≠ maxR := by omega
    rw [show k + 1 + 1 + r = (k + 1 + r) + 1 from by omega, List.range'_succ,
      withRetriesGo_cons_error fn b maxR a _ e he hne]
    have ihh := ih (a + 1) r v (fun i h1 h2 => hfail i (by omega) (by omega))
      (by rw [show a + 1 + k = a + (k + 1) from by omega]; exact hok) (by omega)
    rw [ihh, List.range'_succ, List.map_cons]

theorem withRetriesGo_all_fail (fn : Nat → Except E A) (b maxR : Nat) (eM : E)
    (hM : fn maxR = .error eM) :
    ∀ (d a : Nat), maxR = a + d →
      (∀ i, a ≤ i → i < maxR → ∃ e, fn i = .error e) →
      withRetriesGo fn b maxR (List.range' a (maxR - a + 1)) =
        ⟨some (.error eM), (List.range' a (maxR - a)).map (fun i => b * 2 ^ (i - 1)),
          maxR - a + 1⟩ := by
  intro d
  induction d with
  | zero =>
    intro a ha _
    rw [show maxR - a = 0 from by omega, show (0 : Nat) + 1 = 1 from rfl, List.range'_one,
      show ([a] : List Nat) = a :: [] from rfl,
      withRetriesGo_cons_last fn b maxR a [] eM
        (by rw [show a = maxR from by omega]; exact hM) (by omega)]
    simp
  | succ d ih =>
    intro a ha hfail
    obtain ⟨e, he⟩ := hfail a (Nat.le_refl a) (by omega)
    have hne : a ≠ maxR := by omega
    rw [show maxR - a + 1 = (maxR - (a + 1) + 1) + 1 from by omega, List.range'_succ,
      withRetriesGo_cons_error fn b maxR a _ e he hne]
    rw [ih (a + 1) (by omega) (fun i hi1 hi2 => hfail i (by omega) hi2)]
    rw [show maxR - a = (maxR - (a + 1)) + 1 from by omega, List.range'_succ, List.map_cons]

/-- C3: the retry combinator `_with_retries` returns the value of the first
successful attempt; a failing attempt `i < max_retries` sleeps exactly
`base_delay * 2 ^ (i - 1)` and retries; a callee failing `k < max_retries`
times then succeeding yields its value after `k` back-off sleeps and `k+1`
calls; a callee that always fails is called exactly `max_retries` times and
the exception of the final attempt is re-raised unchanged; the defaults are
`max_retries = 5`, `base_delay = 2`. -/
theorem c3_retry_policy (E A : Type) (fn : Nat → Except E A) (M b : Nat) (hM : 1 ≤ M) :
    (∀ v : A, fn 1 = .ok v → withRetries fn M b = ⟨some (.ok v), [], 1⟩) ∧
    (∀ (k : Nat) (v : A), k + 1 ≤ M →
      (∀ i, 1 ≤ i → i ≤ k → ∃ e, fn i = .error e) →
      fn (k + 1) = .ok v →
      withRetries fn M b =
        ⟨some (.ok v), (List.range' 1 k).map (fun i => b * 2 ^ (i - 1)), k + 1⟩) ∧
    (∀ eM : E,
      (∀ i, 1 ≤ i → i < M → ∃ e, fn i = .error e) →
      fn M = .error eM →
      withRetries fn M b =
        ⟨some (.error eM), (List.range' 1 (M - 1)).map (fun i => b * 2 ^ (i - 1)), M⟩) ∧
    (withRetries fn = withRetries fn 5 2) := by
  refine ⟨?_, ?_, ?_, rfl⟩
  · intro v hok
    have h := withRetriesGo_ok fn b M 0 1 (M - 1) v (by omega) (by simpa using hok) (by omega)
    rw [withRetries, show List.range' 1 M = List.range' 1 (0 + 1 + (M - 1)) from by congr 1; omega]
    simpa using h
  · intro k v hkM hfail hok
    have h := withRetriesGo_ok fn b M k 1 (M - (k + 1)) v
      (fun i h1 h2 => hfail i h1 (by omega))
      (by rw [show 1 + k = k + 1 from by omega]; exact hok) (by omega)
    rw [withRetries,
      show List.range' 1 M = List.range' 1 (k + 1 + (M - (k + 1))) from by congr 1; omega]
    exact h
  · intro eM hfail hM'
    have h := withRetriesGo_all_fail fn b M eM hM' (M - 1) 1 (by omega) hfail
    rw [withRetries, show List.range' 1 M = List.range' 1 (M - 1 + 1) from by congr 1; omega]
    rw [h]
    congr 1
    omega

/-- Witness for C3 at a concrete callee that always raises: five calls,
four sleeps of 2, 4, 8, 16 time units, and the final exception surfaced. -/
theorem c3_retry_policy_witness :
    withRetries (fun _ => (.error "boom" : Except String Nat)) 5 2 =
      ⟨some (.error "boom"), [2, 4, 8, 16], 5⟩ := by
  have h := (c3_retry_policy String Nat (fun _ => .error "boom") 5 2 (by decide)).2.2.1
    "boom" (fun i _ _ => ⟨"boom", rfl⟩) rfl
  rw [h]
  rfl

/-! ## Claim C5: the work source range -/

/-- C5: the work source selects exactly the 0-based indices whose 1-based
positions lie in `[max(1,start), min(end,n)]`, in increasing collection
order, and the run aborts with the invalid-range error, before building any
state, exactly when `max(1,start) > min(end,n)`. -/
theorem c5_work_source (n : Nat) (start endArg : Int) :
    ((∃ msg, rangeSlice n start endArg = .error msg) ↔ max 1 start > min endArg n) ∧
    (∀ l, rangeSlice n start endArg = .ok l →
      (∀ i : Nat, i ∈ l ↔ max 1 start ≤ (i : Int) + 1 ∧ (i : Int) + 1 ≤ min endArg n) ∧
      l.Pairwise (· < ·)) ∧
    (∀ (p : Provider) (convs : List Conv) (sink0 : List SinkLine) msg,
      rangeSlice convs.length start endArg = .error msg →
      run p convs start endArg sink0 = .error msg) := by
  refine ⟨⟨?_, ?_⟩, ?_, ?_⟩
  · intro ⟨msg, hmsg⟩
    by_contra hc
    rw [rangeSlice, if_neg hc] at hmsg
    exact Except.noConfusion hmsg
  · intro h
    exact ⟨_, by rw [rangeSlice, if_pos h]⟩
  · intro l hl
    have hcond : ¬ max 1 start > min endArg (n : Int) := by
      by_contra hc
      rw [rangeSlice, if_pos hc] at hl
      exact Except.noConfusion hl
    rw [rangeSlice, if_neg hcond] at hl
    have hl' : List.range' (max 1 start - 1).toNat (min endArg (n : Int) - max 1 start + 1).toNat
        = l := Except.ok.inj hl
    subst hl'
    push_neg at hcond
    constructor
    · intro i
      rw [List.mem_range'_1]
      omega
    · exact List.pairwise_lt_range' _ _
  · intro p convs sink0 msg hmsg
    rw [run, hmsg]

/-- Witness for C5: the concrete range `[--start 4, --end 2]` over a 5-item
collection aborts, and `[--start -3, --end 2]` clamps to positions 1-2. -/
theorem c5_work_source_witness :
    rangeSlice 5 4 2 = .error "--start must be <= --end" ∧
    (0 ∈ [0, 1] ↔ max 1 (-3) ≤ (0 : Int) + 1 ∧ (0 : Int) + 1 ≤ min 2 (5 : Int)) := by
  constructor
  · rfl
  · exact (((c5_work_source 5 (-3) 2).2.1 [0, 1] (by rfl)).1 0)

/-! ## Claim C1: the sink write operation and the at-most-one-record invariant -/

theorem recCount_append (x : String) (s1 s2 : List SinkLine) :
    recCount x (s1 ++ s2) = recCount x s1 + recCount x s2 :=
  List.countP_append _ _ _

theorem recCount_singleton (x cid : String) (th : List String) :
    recCount x [.record (some cid) th] = if cid = x then 1 else 0 := by
  by_cases h : cid = x <;> simp [recCount, List.countP, List.countP.go, h]

theorem mem_loadLedger (x : String) :
    ∀ sink : List SinkLine,
      (x ∈ loadLedger sink ↔ x ≠ "" ∧ ∃ th, SinkLine.record (some x) th ∈ sink)
  | [] => by simp [loadLedger]
  | .blank :: rest => by
      rw [loadLedger]
      simp only [List.mem_cons]
      rw [mem_loadLedger x rest]
      constructor
      · rintro ⟨hne, th, hth⟩
        exact ⟨hne, th, Or.inr hth⟩
      · rintro ⟨hne, th, hth | hth⟩
        · exact absurd hth (by simp)
        · exact ⟨hne, th, hth⟩
  | .malformed :: rest => by
      rw [loadLedger]
      simp only [List.mem_cons]
      rw [mem_loadLedger x rest]
      constructor
      · rintro ⟨hne, th, hth⟩
        exact ⟨hne, th, Or.inr hth⟩
      · rintro ⟨hne, th, hth | hth⟩
        · exact absurd hth (by simp)
        · exact ⟨hne, th, hth⟩
  | .record none th0 :: rest => by
      rw [loadLedger]
      simp only [List.mem_cons]
      rw [mem_loadLedger x rest]
      constructor
      · rintro ⟨hne, th, hth⟩
        exact ⟨hne, th, Or.inr hth⟩
      · rintro ⟨hne, th, hth | hth⟩
        · exact absurd hth (by simp)
        · exact ⟨hne, th, hth⟩
  | .record (some cid) th0 :: rest => by
      rw [loadLedger]
      by_cases hc : cid = ""
      · rw [if_pos hc]
        rw [mem_loadLedger x rest]
        subst hc
        constructor
        · rintro ⟨hne, th, hth⟩
          exact ⟨hne, th, List.mem_cons_of_mem _ hth⟩
        · rintro ⟨hne, th, hth⟩
          rcases List.mem_cons.mp hth with hth | hth
          · cases hth
            exact absurd rfl hne
          · exact ⟨hne, th, hth⟩
      · rw [if_neg hc]
        simp only [List.mem_cons]
        rw [mem_loadLedger x rest]
        constructor
        · rintro (rfl | ⟨hne, th, hth⟩)
          · exact ⟨hc, th0, Or.inl rfl⟩
          · exact ⟨hne, th, Or.inr hth⟩
        · rintro ⟨hne, th, hth | hth⟩
          · cases hth
            exact Or.inl rfl
          · exact Or.inr ⟨hne, th, hth⟩

/-- C1: `write_record` is a silent no-op when the id is already in the
ledger; otherwise it appends exactly one line and adds the id to the
ledger; check, append and ledger update form one atomic transition (the
`write_lock` critical section), and this transition preserves the
at-most-one-record-per-id invariant, also along any sequence of
interleaved writes, while a fresh run's ledger scan re-establishes the
invariant from a well-formed sink. -/
theorem c1_write_record :
    (∀ (st : RunState) (cid : String) (th : List String),
      cid ∈ st.ledger → writeRecord cid th st = st) ∧
    (∀ (st : RunState) (cid : String) (th : List String),
      cid ∉ st.ledger → writeRecord cid th st =
        ⟨st.sink ++ [.record (some cid) th], cid :: st.ledger,
          st.appended + 1, st.calls⟩) ∧
    (∀ (st : RunState) (cid : String) (th : List String),
      LedgerInv st → LedgerInv (writeRecord cid th st)) ∧
    (∀ (st : RunState) (ws : List (String × List String)),
      LedgerInv st →
      LedgerInv (ws.foldl (fun s ct => writeRecord ct.1 ct.2 s) st)) ∧
    (∀ sink0 : List SinkLine,
      (∀ x, recCount x sink0 ≤ 1) →
      (∀ x th, SinkLine.record (some x) th ∈ sink0 → x ≠ "") →
      LedgerInv ⟨sink0, loadLedger sink0, 0, []⟩) := by
  have hnoop : ∀ (st : RunState) (cid : String) (th : List String),
      cid ∈ st.ledger → writeRecord cid th st = st := by
    intro st cid th h
    rw [writeRecord, if_pos h]
  have happend : ∀ (st : RunState) (cid : String) (th : List String),
      cid ∉ st.ledger → writeRecord cid th st =
        ⟨st.sink ++ [.record (some cid) th], cid :: st.ledger,
          st.appended + 1, st.calls⟩ := by
    intro st cid th h
    rw [writeRecord, if_neg h]
  have hinv : ∀ (st : RunState) (cid : String) (th : List String),
      LedgerInv st → LedgerInv (writeRecord cid th st) := by
    intro st cid th hI
    by_cases hmem : cid ∈ st.ledger
    · rw [hnoop st cid th hmem]
      exact hI
    · rw [happend st cid th hmem]
      intro x
      dsimp only
      by_cases hx : cid = x
      · subst hx
        have h0 : recCount cid st.sink = 0 := by
          rcases Nat.eq_zero_or_pos (recCount cid st.sink) with h | h
          · exact h
          · exact absurd ((hI cid).2 h) hmem
        constructor
        · simp [recCount_append, recCount_singleton, h0]
        · intro _
          exact List.mem_cons_self _ _
      · constructor
        · simp only [recCount_append, recCount_singleton, if_neg hx]
          exact (hI x).1.trans (by omega) |>.trans (le_refl 1)
        · intro hpos
          simp only [recCount_append, recCount_singleton, if_neg hx] at hpos
          exact List.mem_cons_of_mem _ ((hI x).2 (by omega))
  refine ⟨hnoop, happend, hinv, ?_, ?_⟩
  · intro st ws
    induction ws generalizing st with
    | nil => intro h; exact h
    | cons w rest ih =>
      intro h
      exact ih _ (hinv st w.1 w.2 h)
  · intro sink0 hcount hne x
    refine ⟨hcount x, ?_⟩
    intro hpos
    have hex : ∃ l ∈ sink0, (match l with
        | SinkLine.record (some y) _ => decide (y = x)
        | _ => false) = true := by
      rw [← List.countP_pos_iff]
      exact hpos
    obtain ⟨l, hl, hmatch⟩ := hex
    match l, hmatch with
    | .record (some y) th, hm =>
      have hyx : y = x := by simpa using hm
      subst hyx
      rw [mem_loadLedger]
      exact ⟨hne y th hl, th, hl⟩

/-- Witness for C1: a write whose id is already in the ledger leaves the
state untouched, and a write of a fresh id appends exactly one line. -/
theorem c1_write_record_witness :
    writeRecord "a" ["t"] ⟨[SinkLine.record (some "a") []], ["a"], 0, []⟩ =
      ⟨[SinkLine.record (some "a") []], ["a"], 0, []⟩ ∧
    writeRecord "b" ["t"] ⟨[SinkLine.record (some "a") []], ["a"], 0, []⟩ =
      ⟨[SinkLine.record (some "a") [], SinkLine.record (some "b") ["t"]],
        ["b", "a"], 1, []⟩ :=
  ⟨c1_write_record.1 _ "a" ["t"] (by simp),
   c1_write_record.2.1 _ "b" ["t"] (by simp)⟩

/-! ## Claim C4: ledger construction and resume behaviour -/

theorem loadLedger_append :
    ∀ l1 l2 : List SinkLine, loadLedger (l1 ++ l2) = loadLedger l1 ++ loadLedger l2
  | [], l2 => by simp [loadLedger]
  | .blank :: r, l2 => by
      simp only [List.cons_append, loadLedger]
      exact loadLedger_append r l2
  | .malformed :: r, l2 => by
      simp only [List.cons_append, loadLedger]
      exact loadLedger_append r l2
  | .record none th :: r, l2 => by
      simp only [List.cons_append, loadLedger]
      exact loadLedger_append r l2
  | .record (some cid) th :: r, l2 => by
      simp only [List.cons_append, loadLedger]
      by_cases hc : cid = ""
      · rw [if_pos hc, if_pos hc]
        exact loadLedger_append r l2
      · rw [if_neg hc, if_neg hc,
          show loadLedger (List.append r l2) = loadLedger r ++ loadLedger l2 from
            loadLedger_append r l2,
          List.cons_append]

theorem writeRecord_calls (cid : String) (th : List String) (st : RunState) :
    (writeRecord cid th st).calls = st.calls := by
  rw [writeRecord]
  by_cases h : cid ∈ st.ledger
  · rw [if_pos h]
  · rw [if_neg h]

theorem writeRecord_ledger_sub (cid : String) (th : List String) (st : RunState) :
    ∀ x ∈ st.ledger, x ∈ (writeRecord cid th st).ledger := by
  intro x hx
  rw [writeRecord]
  by_cases h : cid ∈ st.ledger
  · rw [if_pos h]
    exact hx
  · rw [if_neg h]
    exact List.mem_cons_of_mem _ hx

theorem writeRecord_self_mem (cid : String) (th : List String) (st : RunState) :
    cid ∈ (writeRecord cid th st).ledger := by
  rw [writeRecord]
  by_cases h : cid ∈ st.ledger
  · rw [if_pos h]
    exact h
  · rw [if_neg h]
    exact List.mem_cons_self _ _

theorem taskFn_ledger_sub (p : Provider) (convs : List Conv) (st : RunState) (i : Nat) :
    ∀ x ∈ st.ledger, x ∈ ((taskFn p convs st i).1).ledger := by
  intro x hx
  rw [taskFn]
  by_cases hmem : convId i (convs.getD i defaultConv) ∈ st.ledger
  · rw [if_pos hmem]
    exact hx
  · rw [if_neg hmem]
    by_cases hb : pyStrip (convs.getD i defaultConv).transcript = ""
    · rw [if_pos hb]
      exact writeRecord_ledger_sub _ _ _ x hx
    · rw [if_neg hb]
      cases hp : p (convId i (convs.getD i defaultConv)) (convs.getD i defaultConv).transcript with
      | error e => exact hx
      | ok r => exact writeRecord_ledger_sub _ _ _ x hx

theorem taskFn_calls (p : Provider) (convs : List Conv) (st : RunState) (i : Nat) :
    ((taskFn p convs st i).1).calls = st.calls ∨
      (((taskFn p convs st i).1).calls = st.calls ++ [convId i (convs.getD i defaultConv)] ∧
        convId i (convs.getD i defaultConv) ∉ st.ledger) := by
  rw [taskFn]
  by_cases hmem : convId i (convs.getD i defaultConv) ∈ st.ledger
  · rw [if_pos hmem]
    exact Or.inl rfl
  · rw [if_neg hmem]
    by_cases hb : pyStrip (convs.getD i defaultConv).transcript = ""
    · rw [if_pos hb]
      exact Or.inl (writeRecord_calls _ _ _)
    · rw [if_neg hb]
      cases hp : p (convId i (convs.getD i defaultConv)) (convs.getD i defaultConv).transcript with
      | error e => exact Or.inr ⟨rfl, hmem⟩
      | ok r => exact Or.inr ⟨(writeRecord_calls _ _ _).trans rfl, hmem⟩

theorem runTasks_ledger_sub (p : Provider) (convs : List Conv) :
    ∀ (idxs : List Nat) (st : RunState), ∀ x ∈ st.ledger, x ∈ (runTasks p convs st idxs).ledger
  | [], st => by
      intro x hx
      exact hx
  | i :: rest, st => by
      intro x hx
      rw [runTasks]
      exact runTasks_ledger_sub p convs rest _ x (taskFn_ledger_sub p convs st i x hx)

theorem runTasks_calls_fresh (p : Provider) (convs : List Conv) (L0 : List String) :
    ∀ (idxs : List Nat) (st : RunState),
      (∀ x ∈ L0, x ∈ st.ledger) →
      (∀ x ∈ st.calls, x ∉ L0) →
      ∀ x ∈ (runTasks p convs st idxs).calls, x ∉ L0
  | [], st => by
      intro _ hcalls x hx
      exact hcalls x hx
  | i :: rest, st => by
      intro hsub hcalls
      rw [runTasks]
      refine runTasks_calls_fresh p convs L0 rest _ ?_ ?_
      · intro x hx
        exact taskFn_ledger_sub p convs st i x (hsub x hx)
      · intro x hx
        rcases taskFn_calls p convs st i with h | ⟨h, hnot⟩
        · rw [h] at hx
          exact hcalls x hx
        · rw [h] at hx
          rcases List.mem_append.mp hx with hx | hx
          · exact hcalls x hx
          · rcases List.mem_singleton.mp hx with rfl
            intro hmem
            exact hnot (hsub _ hmem)

/-- C4: the ledger is built by scanning every line of the pre-existing
sink, skipping blank and malformed lines without failing; the External
Worker is then invoked only for items whose id is absent from that ledger;
concretely, with a sink holding ids 1-3 and a range covering ids 1-5, the
worker is called exactly for ids 4 and 5. -/
theorem c4_resume_skips_ledger :
    (∀ l1 l2 : List SinkLine,
      loadLedger (l1 ++ SinkLine.malformed :: l2) = loadLedger (l1 ++ l2) ∧
      loadLedger (l1 ++ SinkLine.blank :: l2) = loadLedger (l1 ++ l2)) ∧
    (∀ (p : Provider) (convs : List Conv) (start endArg : Int) (sink0 : List SinkLine)
      (cid : String), cid ∈ runCalls (run p convs start endArg sink0) →
        cid ∉ loadLedger sink0) ∧
    (runCalls (run (fun _ _ => .ok (.parsed ["x"]))
      [⟨some "1", none, "t1"⟩, ⟨some "2", none, "t2"⟩, ⟨some "3", none, "t3"⟩,
       ⟨some "4", none, "t4"⟩, ⟨some "5", none, "t5"⟩] 1 5
      [.record (some "1") ["a"], .malformed, .blank, .record (some "2") [],
       .record (some "3") ["b"]]) = ["4", "5"]) := by
  refine ⟨?_, ?_, by rfl⟩
  · intro l1 l2
    constructor
    · rw [loadLedger_append, loadLedger_append, loadLedger]
    · rw [loadLedger_append, loadLedger_append, loadLedger]
  · intro p convs start endArg sink0 cid hcid
    rw [run] at hcid
    cases hr : rangeSlice convs.length start endArg with
    | error msg =>
      rw [hr] at hcid
      simp [runCalls] at hcid
    | ok idxs =>
      rw [hr] at hcid
      simp only [runCalls] at hcid
      refine runTasks_calls_fresh p convs (loadLedger sink0) idxs
        ⟨sink0, loadLedger sink0, 0, []⟩ (fun x hx => hx) (by simp) cid hcid

/-- Witness for C4: in the concrete resumed run, id 4 was called, hence was
absent from the pre-existing ledger. -/
theorem c4_resume_skips_ledger_witness :
    ("4" : String) ∉ loadLedger
      [.record (some "1") ["a"], .malformed, .blank, .record (some "2") [],
       .record (some "3") ["b"]] :=
  c4_resume_skips_ledger.2.1 (fun _ _ => .ok (.parsed ["x"]))
    [⟨some "1", none, "t1"⟩, ⟨some "2", none, "t2"⟩, ⟨some "3", none, "t3"⟩,
     ⟨some "4", none, "t4"⟩, ⟨some "5", none, "t5"⟩] 1 5
    [.record (some "1") ["a"], .malformed, .blank, .record (some "2") [],
     .record (some "3") ["b"]] "4" (by rw [c4_resume_skips_ledger.2.2]; decide)

/-! ## Claim C6: the Empty outcome

The claim states that an unparsable provider response leads to NO record
being written for that id.  The code does the opposite: `task_fn` passes
the empty themes list produced by `analyze_themes_minimal` straight to
`write_record`, which appends `{"id": cid, "themes": []}`. -/

/-- C6 counterexample: a single-item run whose provider response is
unparsable DOES append a record for that id (with an empty themes list),
refuting "no record for that id is written to the output sink during the
run". -/
theorem c6_empty_counterexample :
    analyzeThemes (.unparsable "oops") = [] ∧
    runSink (run (fun _ _ => .ok (.unparsable "oops"))
      [⟨some "c1", none, "hi"⟩] 1 1 []) = [.record (some "c1") []] ∧
    SinkLine.record (some "c1") [] ∈
      runSink (run (fun _ _ => .ok (.unparsable "oops"))
        [⟨some "c1", none, "hi"⟩] 1 1 []) :=
  ⟨rfl, rfl, by decide⟩

/-- C6 amended: an external call that completes but yields no usable
content (an unparsable response) produces an empty themes list and a
record `{"id": cid, "themes": []}` IS appended to the sink (when the id is
not already in the ledger); the write is not an error, and the id is not
retried within the same run: any later task whose id is in the ledger
returns immediately without calling the worker. -/
theorem c6_empty_outcome_amended (p : Provider) (convs : List Conv) (st : RunState)
    (idx : Nat) (raw : String)
    (hmem : convId idx (convs.getD idx defaultConv) ∉ st.ledger)
    (hblank : pyStrip (convs.getD idx defaultConv).transcript ≠ "")
    (hp : p (convId idx (convs.getD idx defaultConv)) (convs.getD idx defaultConv).transcript
      = .ok (.unparsable raw)) :
    taskFn p convs st idx =
      (⟨st.sink ++ [.record (some (convId idx (convs.getD idx defaultConv))) []],
        convId idx (convs.getD idx defaultConv) :: st.ledger, st.appended + 1,
        st.calls ++ [convId idx (convs.getD idx defaultConv)]⟩, none) ∧
    (∀ (st2 : RunState) (idx2 : Nat),
      convId idx2 (convs.getD idx2 defaultConv) ∈ st2.ledger →
      taskFn p convs st2 idx2 = (st2, none)) := by
  constructor
  · simp only [taskFn, if_neg hmem, if_neg hblank, hp]
    rw [writeRecord]
    dsimp only
    rw [if_neg hmem]
    rfl
  · intro st2 idx2 h
    rw [taskFn, if_pos h]

/-- Witness for C6 amended, on a concrete one-item run. -/
theorem c6_empty_outcome_amended_witness :
    taskFn (fun _ _ => .ok (.unparsable "oops")) [⟨some "c1", none, "hi"⟩]
      ⟨[], [], 0, []⟩ 0 =
      (⟨[.record (some "c1") []], ["c1"], 1, ["c1"]⟩, none) :=
  (c6_empty_outcome_amended (fun _ _ => .ok (.unparsable "oops"))
    [⟨some "c1", none, "hi"⟩] ⟨[], [], 0, []⟩ 0 "oops"
    (by decide) (by decide) rfl).1

/-! ## Claim C7: partial-failure isolation

The claim asserts that a task failure is caught, LOGGED with the item id
and cause, and the run continues.  Both schedulers do catch and continue,
and `cmd_generate` logs `Error on index ...`; but `theme_extractor.main`
swallows the exception with `except Exception: pass`, logging nothing. -/

theorem taskFn_covers (p : Provider) (convs : List Conv) (st : RunState) (i : Nat) :
    convId i (convs.getD i defaultConv) ∈ ((taskFn p convs st i).1).ledger ∨
      (pyStrip (convs.getD i defaultConv).transcript ≠ "" ∧
        ∃ e, p (convId i (convs.getD i defaultConv))
          (convs.getD i defaultConv).transcript = .error e) := by
  rw [taskFn]
  by_cases hmem : convId i (convs.getD i defaultConv) ∈ st.ledger
  · rw [if_pos hmem]
    exact Or.inl hmem
  · rw [if_neg hmem]
    by_cases hb : pyStrip (convs.getD i defaultConv).transcript = ""
    · rw [if_pos hb]
      exact Or.inl (writeRecord_self_mem _ _ _)
    · rw [if_neg hb]
      cases hp : p (convId i (convs.getD i defaultConv))
          (convs.getD i defaultConv).transcript with
      | error e => exact Or.inr ⟨hb, e, rfl⟩
      | ok r => exact Or.inl (writeRecord_self_mem _ _ _)

theorem runTasks_covers (p : Provider) (convs : List Conv) :
    ∀ (idxs : List Nat) (st : RunState), ∀ idx ∈ idxs,
      convId idx (convs.getD idx defaultConv) ∈ (runTasks p convs st idxs).ledger ∨
        (pyStrip (convs.getD idx defaultConv).transcript ≠ "" ∧
          ∃ e, p (convId idx (convs.getD idx defaultConv))
            (convs.getD idx defaultConv).transcript = .error e)
  | [], st => by
      intro idx hidx
      exact absurd hidx (List.not_mem_nil idx)
  | i :: rest, st => by
      intro idx hidx
      rw [runTasks]
      rcases List.mem_cons.mp hidx with rfl | hidx
      · rcases taskFn_covers p convs st idx with hmem | hfail
        · exact Or.inl (runTasks_ledger_sub p convs rest _ _ hmem)
        · exact Or.inr hfail
      · exact runTasks_covers p convs rest _ idx hidx

/-- C7 counterexample: a ten-item run whose seventh item always fails
still completes the other nine (nine records appended, id `c7` absent),
but `theme_extractor`'s completion handler — `try: f.result() except
Exception: pass` — emits NOTHING: the failure is not logged with its id
and cause, and zero (not one) failures are reported. -/
theorem c7_failure_logging_counterexample :
    themeCompletionLog (.error "boom") = [] ∧
    runAppended (run
      (fun cid _ => if cid = "c7" then .error "boom" else .ok (.parsed ["x"]))
      [⟨some "c1", none, "t"⟩, ⟨some "c2", none, "t"⟩, ⟨some "c3", none, "t"⟩,
       ⟨some "c4", none, "t"⟩, ⟨some "c5", none, "t"⟩, ⟨some "c6", none, "t"⟩,
       ⟨some "c7", none, "t"⟩, ⟨some "c8", none, "t"⟩, ⟨some "c9", none, "t"⟩,
       ⟨some "c10", none, "t"⟩] 1 10 []) = 9 ∧
    loadLedger (runSink (run
      (fun cid _ => if cid = "c7" then .error "boom" else .ok (.parsed ["x"]))
      [⟨some "c1", none, "t"⟩, ⟨some "c2", none, "t"⟩, ⟨some "c3", none, "t"⟩,
       ⟨some "c4", none, "t"⟩, ⟨some "c5", none, "t"⟩, ⟨some "c6", none, "t"⟩,
       ⟨some "c7", none, "t"⟩, ⟨some "c8", none, "t"⟩, ⟨some "c9", none, "t"⟩,
       ⟨some "c10", none, "t"⟩] 1 10 [])) =
      ["c1", "c2", "c3", "c4", "c5", "c6", "c8", "c9", "c10"] :=
  ⟨rfl, rfl, rfl⟩

/-- C7 amended: a task failure is caught at the task boundary and the run
continues to completion in both schedulers — in a finished
`theme_extractor` run every selected item is either in the final ledger or
is exactly one whose own provider call failed, so one item's failure never
blocks the others; `generate_cards.cmd_generate` additionally logs each
failure to stderr as `Error on index {i}: {cause}` (item 7 of 10 failing
yields nine stdout results and exactly one error line), while
`theme_extractor.main` silently discards the exception and reports no
failure at all. -/
theorem c7_failure_isolation_amended :
    (∀ (p : Provider) (convs : List Conv) (start endArg : Int) (sink0 : List SinkLine)
      (idxs : List Nat) (st : RunState),
      rangeSlice convs.length start endArg = .ok idxs →
      run p convs start endArg sink0 = .ok st →
      ∀ idx ∈ idxs,
        convId idx (convs.getD idx defaultConv) ∈ st.ledger ∨
          (pyStrip (convs.getD idx defaultConv).transcript ≠ "" ∧
            ∃ e, p (convId idx (convs.getD idx defaultConv))
              (convs.getD idx defaultConv).transcript = .error e)) ∧
    (∀ res : Except String Unit, themeCompletionLog res = []) ∧
    (∀ (task : Nat → Except String String) (idxs : List Nat),
      cmdGenerateLoop task idxs =
        (idxs.filterMap (fun i => match task i with
          | .ok s => some ("#" ++ toString i ++ " " ++ s)
          | .error _ => none),
         idxs.filterMap (fun i => match task i with
          | .ok _ => none
          | .error e => some ("Error on index " ++ toString i ++ ": " ++ e)))) ∧
    (cmdGenerateLoop (fun i => if i = 7 then .error "boom" else .ok "done")
      [1, 2, 3, 4, 5, 6, 7, 8, 9, 10] =
      (["#1 done", "#2 done", "#3 done", "#4 done", "#5 done", "#6 done",
        "#8 done", "#9 done", "#10 done"],
       ["Error on index 7: boom"])) := by
  refine ⟨?_, fun res => by cases res <;> rfl, ?_, by rfl⟩
  · intro p convs start endArg sink0 idxs st hr hrun idx hidx
    rw [run, hr] at hrun
    have hst : runTasks p convs ⟨sink0, loadLedger sink0, 0, []⟩ idxs = st :=
      Except.ok.inj hrun
    rw [← hst]
    exact runTasks_covers p convs idxs _ idx hidx
  · intro task idxs
    induction idxs with
    | nil => rfl
    | cons i rest ih =>
      rw [cmdGenerateLoop, ih]
      cases htask : task i <;> simp [List.filterMap_cons, htask]

/-- Witness for C7 amended: in a concrete two-item run whose second item
fails, the first item is in the final ledger or failed itself (it is in
the ledger). -/
theorem c7_failure_isolation_amended_witness :
    convId 0 ([⟨some "a", none, "t"⟩, ⟨some "b", none, "t"⟩].getD 0 defaultConv) ∈
        (⟨[.record (some "a") ["x"]], ["a"], 1, ["a", "b"]⟩ : RunState).ledger ∨
      (pyStrip ([⟨some "a", none, "t"⟩, ⟨some "b", none, "t"⟩].getD 0 defaultConv).transcript ≠ "" ∧
        ∃ e, (fun cid _ => if cid = "b" then .error "boom"
            else .ok (.parsed ["x"]) : Provider)
          (convId 0 ([⟨some "a", none, "t"⟩, ⟨some "b", none, "t"⟩].getD 0 defaultConv))
          ([⟨some "a", none, "t"⟩, ⟨some "b", none, "t"⟩].getD 0 defaultConv).transcript
            = .error e) :=
  c7_failure_isolation_amended.1
    (fun cid _ => if cid = "b" then .error "boom" else .ok (.parsed ["x"]))
    [⟨some "a", none, "t"⟩, ⟨some "b", none, "t"⟩] 1 2 []
    [0, 1] ⟨[.record (some "a") ["x"]], ["a"], 1, ["a", "b"]⟩ rfl rfl 0 (by decide)

/-! ## Claim C8: idempotence of a repeated run -/

theorem orFalsy_ne_empty (a : Option String) (b : String) (hb : b ≠ "") :
    orFalsy a b ≠ "" := by
  cases a with
  | none => simpa [orFalsy] using hb
  | some s =>
    by_cases hs : s = ""
    · simp only [orFalsy, if_pos hs]
      exact hb
    · simp only [orFalsy, if_neg hs]
      exact hs

theorem conv_fallback_ne_empty (s : String) : ("conv-" ++ s) ≠ "" := by
  intro h
  have hlen := congrArg String.length h
  rw [String.length_append] at hlen
  have h5 : ("conv-" : String).length = 5 := rfl
  have h0 : ("" : String).length = 0 := rfl
  omega

theorem convId_ne_empty (idx : Nat) (c : Conv) : convId idx c ≠ "" :=
  orFalsy_ne_empty _ _ (orFalsy_ne_empty _ _ (conv_fallback_ne_empty _))

theorem writeRecord_sync (cid : String) (th : List String) (st : RunState)
    (hcid : cid ≠ "") (hs : LedgerSync st) : LedgerSync (writeRecord cid th st) := by
  rw [writeRecord]
  by_cases hmem : cid ∈ st.ledger
  · rw [if_pos hmem]
    exact hs
  · rw [if_neg hmem]
    intro x
    dsimp only
    rw [loadLedger_append]
    rw [show loadLedger [SinkLine.record (some cid) th] = [cid] from by
      rw [loadLedger, if_neg hcid, loadLedger]]
    rw [List.mem_cons, List.mem_append, List.mem_singleton, hs x]
    tauto

theorem taskFn_sync (p : Provider) (convs : List Conv) (st : RunState) (i : Nat)
    (hs : LedgerSync st) : LedgerSync ((taskFn p convs st i).1) := by
  rw [taskFn]
  by_cases hmem : convId i (convs.getD i defaultConv) ∈ st.ledger
  · rw [if_pos hmem]
    exact hs
  · rw [if_neg hmem]
    by_cases hb : pyStrip (convs.getD i defaultConv).transcript = ""
    · rw [if_pos hb]
      exact writeRecord_sync _ _ _ (convId_ne_empty _ _) hs
    · rw [if_neg hb]
      cases hp : p (convId i (convs.getD i defaultConv))
          (convs.getD i defaultConv).transcript with
      | error e => exact hs
      | ok r =>
        refine writeRecord_sync _ _ _ (convId_ne_empty _ _) ?_
        intro x
        exact hs x

theorem runTasks_sync (p : Provider) (convs : List Conv) :
    ∀ (idxs : List Nat) (st : RunState),
      LedgerSync st → LedgerSync (runTasks p convs st idxs)
  | [], _ => fun hs => hs
  | i :: rest, st => fun hs =>
      runTasks_sync p convs rest _ (taskFn_sync p convs st i hs)

theorem runTasks_noop (p : Provider) (convs : List Conv) :
    ∀ (idxs : List Nat) (st : RunState),
      (∀ idx ∈ idxs,
        convId idx (convs.getD idx defaultConv) ∈ st.ledger ∨
          (pyStrip (convs.getD idx defaultConv).transcript ≠ "" ∧
            ∃ e, p (convId idx (convs.getD idx defaultConv))
              (convs.getD idx defaultConv).transcript = .error e)) →
      (runTasks p convs st idxs).sink = st.sink ∧
      (runTasks p convs st idxs).ledger = st.ledger ∧
      (runTasks p convs st idxs).appended = st.appended
  | [], st => fun _ => ⟨rfl, rfl, rfl⟩
  | i :: rest, st => by
      intro h
      rw [runTasks]
      have hstep : ((taskFn p convs st i).1).sink = st.sink ∧
          ((taskFn p convs st i).1).ledger = st.ledger ∧
          ((taskFn p convs st i).1).appended = st.appended := by
        rw [taskFn]
        by_cases hmem : convId i (convs.getD i defaultConv) ∈ st.ledger
        · rw [if_pos hmem]
          exact ⟨rfl, rfl, rfl⟩
        · rw [if_neg hmem]
          rcases h i (List.mem_cons_self i rest) with hmem' | ⟨hb, e, hp⟩
          · exact absurd hmem' hmem
          · rw [if_neg hb, hp]
            exact ⟨rfl, rfl, rfl⟩
      have hrest := runTasks_noop p convs rest (taskFn p convs st i).1
        (fun idx hidx => by
          rw [hstep.2.1]
          exact h idx (List.mem_cons_of_mem i hidx))
      exact ⟨hrest.1.trans hstep.1, hrest.2.1.trans hstep.2.1, hrest.2.2.trans hstep.2.2⟩

/-- C8: running the engine a second time over the sink produced by a first
successful run (same provider, collection and range) appends zero records,
leaves the sink literally unchanged (hence the same set of ids), and
terminates successfully, reporting an appended count of 0. -/
theorem c8_idempotent (p : Provider) (convs : List Conv) (start endArg : Int)
    (sink0 : List SinkLine) (st1 : RunState)
    (h : run p convs start endArg sink0 = .ok st1) :
    ∃ st2, run p convs start endArg st1.sink = .ok st2 ∧
      st2.sink = st1.sink ∧ st2.appended = 0 ∧
      (∀ x, x ∈ loadLedger st2.sink ↔ x ∈ loadLedger st1.sink) ∧
      runReport st2 = "Appended 0 new conversation(s)." := by
  cases hr : rangeSlice convs.length start endArg with
  | error msg =>
    rw [run, hr] at h
    exact Except.noConfusion h
  | ok idxs =>
    rw [run, hr] at h
    have hst1 : runTasks p convs ⟨sink0, loadLedger sink0, 0, []⟩ idxs = st1 :=
      Except.ok.inj h
    have hsync1 : LedgerSync st1 := by
      rw [← hst1]
      exact runTasks_sync p convs idxs _ (fun x => Iff.rfl)
    have hcov : ∀ idx ∈ idxs,
        convId idx (convs.getD idx defaultConv) ∈ st1.ledger ∨
          (pyStrip (convs.getD idx defaultConv).transcript ≠ "" ∧
            ∃ e, p (convId idx (convs.getD idx defaultConv))
              (convs.getD idx defaultConv).transcript = .error e) := by
      rw [← hst1]
      exact runTasks_covers p convs idxs _
    have hnoop := runTasks_noop p convs idxs ⟨st1.sink, loadLedger st1.sink, 0, []⟩
      (fun idx hidx => by
        rcases hcov idx hidx with hmem | hfail
        · exact Or.inl ((hsync1 _).mp hmem)
        · exact Or.inr hfail)
    refine ⟨runTasks p convs ⟨st1.sink, loadLedger st1.sink, 0, []⟩ idxs,
      by rw [run, hr], hnoop.1, hnoop.2.2, ?_, ?_⟩
    · intro x
      rw [hnoop.1]
    · rw [runReport, hnoop.2.2]
      dsimp only
      rfl

/-- Witness for C8: a concrete one-item first run, then the second run is a
successful zero-append no-op. -/
theorem c8_idempotent_witness :
    ∃ st2, run (fun _ _ => .ok (.parsed ["x"])) [⟨some "a", none, "t"⟩] 1 1
        (⟨[.record (some "a") ["x"]], ["a"], 1, ["a"]⟩ : RunState).sink = .ok st2 ∧
      st2.sink = (⟨[.record (some "a") ["x"]], ["a"], 1, ["a"]⟩ : RunState).sink ∧
      st2.appended = 0 ∧
      (∀ x, x ∈ loadLedger st2.sink ↔
        x ∈ loadLedger (⟨[.record (some "a") ["x"]], ["a"], 1, ["a"]⟩ : RunState).sink) ∧
      runReport st2 = "Appended 0 new conversation(s)." :=
  c8_idempotent (fun _ _ => .ok (.parsed ["x"])) [⟨some "a", none, "t"⟩] 1 1 []
    ⟨[.record (some "a") ["x"]], ["a"], 1, ["a"]⟩ (by rfl)

/-! ## Claim C2: the bounded-concurrency scheduler -/

theorem get_cons_eraseIdx_perm :
    ∀ (l : List α) (i : Nat) (h : i < l.length),
      (l.get ⟨i, h⟩ :: l.eraseIdx i).Perm l
  | x :: xs, 0, h => by simp [List.eraseIdx]
  | x :: xs, i + 1, h => by
      have ih := get_cons_eraseIdx_perm xs i (by simpa using h)
      have hget : (x :: xs).get ⟨i + 1, h⟩ = xs.get ⟨i, by simpa using h⟩ := rfl
      rw [List.eraseIdx, hget]
      exact (List.Perm.swap x _ _).trans (ih.cons x)

theorem prefill_spec (N : Nat) :
    ∀ (rem infl : List α), infl.length ≤ N →
      (prefill N rem infl).completed = [] ∧
      (prefill N rem infl).inflight.length ≤ N ∧
      ((prefill N rem infl).remaining ≠ [] → (prefill N rem infl).inflight.length = N) ∧
      (prefill N rem infl).inflight ++ (prefill N rem infl).remaining = infl ++ rem
  | [], infl => fun h => by
      refine ⟨rfl, h, ?_, by simp [prefill]⟩
      intro hc
      exact absurd (show (prefill N ([] : List α) infl).remaining = [] from rfl) hc
  | x :: rest, infl => fun h => by
      rw [prefill]
      by_cases hlt : infl.length < N
      · rw [if_pos hlt]
        have ih := prefill_spec N rest (infl ++ [x])
          (by simp only [List.length_append, List.length_singleton]; omega)
        refine ⟨ih.1, ih.2.1, ih.2.2.1, ?_⟩
        rw [ih.2.2.2]
        simp
      · rw [if_neg hlt]
        refine ⟨rfl, h, fun _ => ?_, rfl⟩
        dsimp only
        omega

theorem stepAt_spec (st : SchedState α) (c : Nat) (h0 : ¬ st.inflight.length = 0) :
    ∃ item inflight',
      (item :: inflight').Perm st.inflight ∧
      inflight'.length + 1 = st.inflight.length ∧
      stepAt st c = (match st.remaining with
        | [] => ⟨[], inflight', item :: st.completed⟩
        | x :: rest => ⟨rest, inflight' ++ [x], item :: st.completed⟩) := by
  have hi : c % st.inflight.length < st.inflight.length :=
    Nat.mod_lt _ (Nat.pos_of_ne_zero h0)
  have hperm := get_cons_eraseIdx_perm st.inflight (c % st.inflight.length) hi
  refine ⟨st.inflight.get ⟨c % st.inflight.length, hi⟩,
    st.inflight.eraseIdx (c % st.inflight.length), hperm, ?_, ?_⟩
  · simpa using hperm.length_eq
  · rw [stepAt, dif_neg h0]

theorem stepAt_inv (N : Nat) (work : List α) (st : SchedState α) (c : Nat)
    (hinv : SchedInv N work st) :
    SchedInv N work (stepAt st c) ∧
    (¬ st.inflight.length = 0 →
      (stepAt st c).inflight.length + (stepAt st c).remaining.length + 1 =
        st.inflight.length + st.remaining.length) := by
  by_cases h0 : st.inflight.length = 0
  · rw [stepAt, dif_pos h0]
    exact ⟨hinv, fun hc => absurd h0 hc⟩
  · obtain ⟨item, inflight', hp, hlen, hstep⟩ := stepAt_spec st c h0
    obtain ⟨hbound, hfull, hperm⟩ := hinv
    cases hrem : st.remaining with
    | nil =>
      rw [hrem] at hstep
      dsimp only at hstep
      rw [hstep]
      refine ⟨⟨by dsimp only; omega, by dsimp only; intro hc; exact absurd rfl hc, ?_⟩,
        fun _ => by dsimp only; omega⟩
      dsimp only
      rw [hrem, List.append_nil] at hperm
      have e1 : (item :: st.completed) ++ inflight' ++ [] =
          item :: (st.completed ++ inflight') := by simp
      rw [e1]
      have p1 : (item :: (st.completed ++ inflight')).Perm
          (st.completed ++ (item :: inflight')) := List.perm_middle.symm
      have p2 : (st.completed ++ (item :: inflight')).Perm
          (st.completed ++ st.inflight) := List.Perm.append_left st.completed hp
      exact p1.trans (p2.trans hperm)
    | cons x rest =>
      rw [hrem] at hstep
      dsimp only at hstep
      rw [hstep]
      have hNfull : st.inflight.length = N := hfull (by rw [hrem]; exact List.cons_ne_nil x rest)
      refine ⟨⟨by
          dsimp only
          simp only [List.length_append, List.length_cons, List.length_nil]
          omega,
        fun _ => by
          dsimp only
          simp only [List.length_append, List.length_cons, List.length_nil]
          omega,
        ?_⟩,
        fun _ => by
          dsimp only
          simp only [List.length_append, List.length_cons, List.length_nil]
          omega⟩
      dsimp only
      rw [hrem] at hperm
      rw [List.append_assoc] at hperm
      have e1 : (item :: st.completed) ++ (inflight' ++ [x]) ++ rest =
          item :: (st.completed ++ (inflight' ++ (x :: rest))) := by simp
      rw [e1]
      have p1 : (item :: (st.completed ++ (inflight' ++ (x :: rest)))).Perm
          (st.completed ++ (item :: (inflight' ++ (x :: rest)))) := List.perm_middle.symm
      have e2 : st.completed ++ (item :: (inflight' ++ (x :: rest))) =
          st.completed ++ ((item :: inflight') ++ (x :: rest)) := by simp
      rw [e2] at p1
      have p2 : (st.completed ++ ((item :: inflight') ++ (x :: rest))).Perm
          (st.completed ++ (st.inflight ++ (x :: rest))) :=
        List.Perm.append_left st.completed (hp.append_right (x :: rest))
      exact p1.trans (p2.trans hperm)

theorem stepAt_submitted (st : SchedState α) (c : Nat) :
    submittedCount (stepAt st c) ≤ submittedCount st + 1 := by
  by_cases h0 : st.inflight.length = 0
  · rw [stepAt, dif_pos h0]
    exact Nat.le_succ _
  · obtain ⟨item, inflight', hp, hlen, hstep⟩ := stepAt_spec st c h0
    cases hrem : st.remaining with
    | nil =>
      rw [hrem] at hstep
      dsimp only at hstep
      rw [hstep, submittedCount, submittedCount]
      dsimp only
      simp only [List.length_cons, List.length_nil]
      omega
    | cons x rest =>
      rw [hrem] at hstep
      dsimp only at hstep
      rw [hstep, submittedCount, submittedCount]
      dsimp only
      simp only [List.length_cons, List.length_append, List.length_nil]
      omega

theorem schedSteps_stuck (st : SchedState α) (h : st.inflight.length = 0) :
    ∀ cs : List Nat, schedSteps st cs = st
  | [] => rfl
  | c :: cs => by rw [schedSteps, if_pos h]

theorem schedSteps_inv (N : Nat) (work : List α) :
    ∀ (cs : List Nat) (st : SchedState α),
      SchedInv N work st → SchedInv N work (schedSteps st cs)
  | [], st => fun hinv => hinv
  | c :: cs, st => fun hinv => by
      rw [schedSteps]
      by_cases h : st.inflight.length = 0
      · rw [if_pos h]
        exact hinv
      · rw [if_neg h]
        exact schedSteps_inv N work cs _ (stepAt_inv N work st c hinv).1

theorem schedSteps_append :
    ∀ (l1 l2 : List Nat) (st : SchedState α),
      schedSteps st (l1 ++ l2) = schedSteps (schedSteps st l1) l2
  | [], l2, st => rfl
  | c :: l1, l2, st => by
      rw [List.cons_append, schedSteps, schedSteps]
      by_cases h : st.inflight.length = 0
      · rw [if_pos h, if_pos h, schedSteps_stuck st h l2]
      · rw [if_neg h, if_neg h]
        exact schedSteps_append l1 l2 (stepAt st c)

theorem submittedCount_schedSteps_single (st : SchedState α) (c : Nat) :
    submittedCount (schedSteps st [c]) ≤ submittedCount st + 1 := by
  rw [schedSteps]
  by_cases h : st.inflight.length = 0
  · rw [if_pos h]
    exact Nat.le_succ _
  · rw [if_neg h]
    exact stepAt_submitted st c

theorem schedSteps_drain (N : Nat) (hN : 1 ≤ N) (work : List α) :
    ∀ (cs : List Nat) (st : SchedState α), SchedInv N work st →
      st.inflight.length + st.remaining.length ≤ cs.length →
      (schedSteps st cs).inflight = [] ∧ (schedSteps st cs).remaining = []
  | [], st => fun _ hlen => by
      simp only [List.length_nil, Nat.le_zero] at hlen
      have h1 : st.inflight.length = 0 := by omega
      have h2 : st.remaining.length = 0 := by omega
      exact ⟨List.length_eq_zero.mp h1, List.length_eq_zero.mp h2⟩
  | c :: cs, st => fun hinv hlen => by
      rw [schedSteps]
      by_cases h : st.inflight.length = 0
      · rw [if_pos h]
        have hrem : st.remaining = [] := by
          by_contra hc
          have := hinv.2.1 hc
          omega
        exact ⟨List.length_eq_zero.mp h, hrem⟩
      · rw [if_neg h]
        have hsp := stepAt_inv N work st c hinv
        refine schedSteps_drain N hN work cs (stepAt st c) hsp.1 ?_
        have := hsp.2 h
        simp only [List.length_cons] at hlen
        omega

/-- C2: for every work list and every concurrency bound `N ≥ 1`, under any
completion order the scheduler never has more than `N` tasks in flight
(pre-fill stops at `N`), each completion submits at most one replacement,
no work item is ever lost or duplicated, and once at least as many
completions as work items have happened every item has been submitted (and
completed) exactly once. -/
theorem c2_bounded_concurrency {α : Type} [DecidableEq α] (N : Nat) (hN : 1 ≤ N)
    (work : List α) (choices : List Nat) :
    (∀ k, (schedRun N work (choices.take k)).inflight.length ≤ N) ∧
    (∀ k, submittedCount (schedRun N work (choices.take (k + 1))) ≤
      submittedCount (schedRun N work (choices.take k)) + 1) ∧
    ((schedRun N work choices).completed ++ (schedRun N work choices).inflight ++
      (schedRun N work choices).remaining).Perm work ∧
    (work.length ≤ choices.length →
      (schedRun N work choices).inflight = [] ∧
      (schedRun N work choices).remaining = [] ∧
      (schedRun N work choices).completed.Perm work ∧
      (work.Nodup → ∀ x ∈ work, (schedRun N work choices).completed.count x = 1)) := by
  have hpre := prefill_spec N work [] (by simp)
  have hinit : SchedInv N work (prefill N work []) := by
    refine ⟨hpre.2.1, hpre.2.2.1, ?_⟩
    rw [hpre.1, List.nil_append, hpre.2.2.2, List.nil_append]
  have hrun : ∀ cs : List Nat, SchedInv N work (schedRun N work cs) :=
    fun cs => schedSteps_inv N work cs _ hinit
  refine ⟨fun k => (hrun (choices.take k)).1, ?_, (hrun choices).2.2, ?_⟩
  · intro k
    have hds : ∀ cs : List Nat, schedRun N work cs = schedSteps (prefill N work []) cs :=
      fun _ => rfl
    rw [List.take_succ, hds, hds, schedSteps_append]
    cases hk : choices[k]? with
    | none =>
      rw [show (none : Option Nat).toList = [] from rfl]
      exact Nat.le_succ _
    | some c =>
      rw [show (some c).toList = [c] from rfl]
      exact submittedCount_schedSteps_single _ c
  · intro hlen
    have hmeasure : (prefill N work []).inflight.length +
        (prefill N work []).remaining.length = work.length := by
      have := congrArg List.length hpre.2.2.2
      simp only [List.length_append, List.length_nil] at this
      omega
    have hdrain := schedSteps_drain N hN work choices (prefill N work []) hinit (by omega)
    have hperm := (hrun choices).2.2
    have hde : schedRun N work choices = schedSteps (prefill N work []) choices := rfl
    rw [hde] at hperm ⊢
    rw [hdrain.1, hdrain.2] at hperm
    simp only [List.append_nil] at hperm
    refine ⟨hdrain.1, hdrain.2, hperm, ?_⟩
    intro hnodup x hx
    rw [hperm.count_eq]
    exact List.count_eq_one_of_mem hnodup hx

/-- Witness for C2: a concrete run with `N = 2` over three items and three
completions drains completely and completes each item exactly once. -/
theorem c2_bounded_concurrency_witness :
    (schedRun 2 [1, 2, 3] [0, 0, 0]).inflight = [] ∧
    (schedRun 2 [1, 2, 3] [0, 0, 0]).remaining = [] ∧
    (schedRun 2 [1, 2, 3] [0, 0, 0]).completed.Perm [1, 2, 3] ∧
    ([1, 2, 3].Nodup → ∀ x ∈ [1, 2, 3],
      (schedRun 2 [1, 2, 3] [0, 0, 0]).completed.count x = 1) :=
  (c2_bounded_concurrency 2 (by decide) [1, 2, 3] [0, 0, 0]).2.2.2 (by decide)

/-! ## Claim C10: unique output paths never clobber existing files -/

/-- C10: `_next_unique_output_path` returns `base` itself (suffix `""`)
when no file with that name exists, and otherwise the first of
`base-2, base-3, ...` that does not exist (suffix `"-n"`); the returned
path never names an existing file, so the image generation target chosen
by `generate_for_prompt_dir` never overwrites an existing front image. -/
theorem c10_next_unique_output_path (fs : List FileName) (stem suffix : String) :
    ((nextUniqueOutputPath fs stem suffix).1 ∉ fs) ∧
    (FileName.base stem suffix ∉ fs →
      nextUniqueOutputPath fs stem suffix = (.base stem suffix, "")) ∧
    (FileName.base stem suffix ∈ fs →
      ∃ n, 2 ≤ n ∧
        nextUniqueOutputPath fs stem suffix =
          (.variant stem n suffix, "-" ++ toString n) ∧
        FileName.variant stem n suffix ∉ fs ∧
        (∀ m, 2 ≤ m → m < n → FileName.variant stem m suffix ∈ fs)) ∧
    (∀ (aa : Bool) (p : FileName), generateFrontPath fs stem suffix aa = some p → p ∉ fs) := by
  have h1 : (nextUniqueOutputPath fs stem suffix).1 ∉ fs := by
    by_cases hb : FileName.base stem suffix ∈ fs
    · rw [nextUniqueOutputPath, if_pos hb]
      exact Nat.find_spec (exists_free_variant fs stem suffix)
    · rw [nextUniqueOutputPath, if_neg hb]
      exact hb
  refine ⟨h1, ?_, ?_, ?_⟩
  · intro hb
    rw [nextUniqueOutputPath, if_neg hb]
  · intro hb
    refine ⟨Nat.find (exists_free_variant fs stem suffix) + 2, by omega,
      by rw [nextUniqueOutputPath, if_pos hb],
      Nat.find_spec (exists_free_variant fs stem suffix), ?_⟩
    intro m h2 hlt
    have hmin := Nat.find_min (exists_free_variant fs stem suffix)
      (show m - 2 < Nat.find (exists_free_variant fs stem suffix) from by omega)
    rw [show m - 2 + 2 = m from by omega] at hmin
    exact not_not.mp hmin
  · intro aa p hgen
    by_cases hcond : (aa || !(decide (FileName.base stem suffix ∈ fs))) = true
    · rw [generateFrontPath, if_pos hcond] at hgen
      cases Option.some.inj hgen
      exact h1
    · rw [generateFrontPath, if_neg hcond] at hgen
      exact Option.noConfusion hgen

/-- Witness for C10: with no existing files the base path itself is
chosen, with the empty suffix. -/
theorem c10_next_unique_output_path_witness :
    nextUniqueOutputPath [] "front-gptimage1-openai" ".png" =
      (.base "front-gptimage1-openai" ".png", "") :=
  (c10_next_unique_output_path [] "front-gptimage1-openai" ".png").2.1 (by decide)

end Aesthetic
